import Mathlib

/-!
Verification of the storage-engine core: the reference-counted MemTable
(`db/memtable.h`), its `Get` lookup semantics, the write-ahead log and its
replication `ChangeIterator`, the WAL retention policy, and the metrics
sampling of `ExposableMetricsElement` (`src/ripple/metrics/impl/MetricsImpl.h`).

Machine integers of the C++ sources are modelled as `Int` (for the signed
`int refs_`) and `Nat` (for the 64-bit sequence numbers and file numbers:
no arithmetic here comes near 2^64, so overflow semantics are irrelevant to
the stated properties).
-/

/-! ## MemTable reference counting (db/memtable.h) -/

/-- The value types stored with an entry, from `db/dbformat.h` as used by
`MemTable::Add` and `MemTable::Get`: a put, a deletion, or a merge operand. -/
inductive ValueType where
  | kTypeValue
  | kTypeDeletion
  | kTypeMerge
deriving DecidableEq, Repr

/-- One versioned entry of a MemTable: sequence number, value type, user key
and value, as inserted by `MemTable::Add(seq, type, key, value)`.  Keys and
values are byte strings (`Slice` in the code), modelled as lists of
characters. -/
structure Entry where
  seq : Nat
  vtype : ValueType
  ukey : List Char
  uval : List Char
deriving DecidableEq, Repr

/-- The MemTable state relevant to lifetime management, from the private
fields of `class MemTable` in `db/memtable.h`: the signed reference count
`refs_`, the two flush flags `flush_in_progress_` and `flush_completed_`,
and the stored entries (the skiplist `table_`). -/
structure MemTableState where
  refs : Int
  flush_in_progress : Bool
  flush_completed : Bool
  data : List Entry
deriving DecidableEq, Repr

/-- Initial state of a freshly constructed MemTable.  The constructor body
lives in `db/memtable.cc` (not in the tree); `db/memtable.h` documents the
contract right above the constructor declaration: "MemTables are reference
counted.  The initial reference count is zero and the caller must call
Ref() at least once."  The table starts empty and no flush has started. -/
def MemTableState.new : MemTableState :=
  { refs := 0, flush_in_progress := false, flush_completed := false, data := [] }

/-- `MemTable::Ref()`: `++refs_`. -/
def MemTableState.ref (m : MemTableState) : MemTableState :=
  { m with refs := m.refs + 1 }

/-- Outcome of one `MemTable::Unref()` call: the table stays live with the
decremented count, or `delete this` ran, or the `assert(refs_ >= 0)` failed
(the process aborts). -/
inductive UnrefResult where
  | live (m : MemTableState)
  | destroyed
  | assertFailed
deriving DecidableEq, Repr

/-- `MemTable::Unref()` from `db/memtable.h`:
`--refs_; assert(refs_ >= 0); if (refs_ <= 0) { delete this; }`.
The decremented count is checked by the assertion first; destruction
happens whenever the decremented count is `<= 0`, with no look at the
flush flags. -/
def MemTableState.unref (m : MemTableState) : UnrefResult :=
  if m.refs - 1 < 0 then UnrefResult.assertFailed
  else if m.refs - 1 ≤ 0 then UnrefResult.destroyed
  else UnrefResult.live { m with refs := m.refs - 1 }

/-! A run of `Ref`/`Unref` calls against one MemTable, for the matched-call
precondition of the assertion claim. -/

/-- A reference-counting operation on a MemTable. -/
inductive RefOp where
  | incr
  | decr
deriving DecidableEq, Repr

/-- State of a MemTable across a run of `Ref`/`Unref` calls: still live,
already destroyed by `delete this`, or aborted by the failed assertion. -/
inductive RunState where
  | live (m : MemTableState)
  | dead
  | aborted
deriving DecidableEq, Repr

/-- One `Ref`/`Unref` call applied to the run state.  A destroyed table
stays destroyed and an aborted process stays aborted. -/
def stepOp (s : RunState) (op : RefOp) : RunState :=
  match s, op with
  | RunState.live m, RefOp.incr => RunState.live m.ref
  | RunState.live m, RefOp.decr =>
    match m.unref with
    | UnrefResult.live m' => RunState.live m'
    | UnrefResult.destroyed => RunState.dead
    | UnrefResult.assertFailed => RunState.aborted
  | RunState.dead, _ => RunState.dead
  | RunState.aborted, _ => RunState.aborted

/-- Run a whole list of `Ref`/`Unref` calls. -/
def runOps (s : RunState) (ops : List RefOp) : RunState :=
  ops.foldl stepOp s

/-- Matched-call check: starting from balance `bal` (the current reference
count), every `Unref` in the list is covered by a preceding `Ref` — the
running balance is at least 1 at each `Unref`. -/
def matchedB (bal : Int) : List RefOp → Bool
  | [] => true
  | RefOp.incr :: t => matchedB (bal + 1) t
  | RefOp.decr :: t => decide (1 ≤ bal) && matchedB (bal - 1) t

/-! ## MemTable entries and Get (declared in db/memtable.h; bodies in
db/memtable.cc, which is not in the tree) -/

/-- Bytewise lexicographic comparison of user keys, the
`BytewiseComparator` order on `Slice`s (compared byte by byte, a proper
initial segment sorting first). -/
def keyLt : List Char → List Char → Bool
  | [], [] => false
  | [], _ :: _ => true
  | _ :: _, [] => false
  | a :: as, b :: bs =>
    if a < b then true
    else if b < a then false
    else keyLt as bs

/-- Modelled from the spec: the `InternalKeyComparator` order used by the
MemTable's skiplist — `db/dbformat.{h,cc}` is not in the tree.  Spec §3:
"InternalKey — sort key (user_key asc, sequence desc, type); guarantees the
newest version of a key sorts first among duplicates." -/
def internalLt (a b : Entry) : Bool :=
  keyLt a.ukey b.ukey || (a.ukey == b.ukey && decide (b.seq < a.seq))

/-- Modelled from the spec: insertion into the sorted multi-version map —
the skiplist insert of `MemTable::Add` (`db/memtable.cc` is not in the
tree).  Spec §4.3: `Add` "inserts one versioned entry (never overwrites in
place — multi-version)", keeping entries in InternalKey order. -/
def insertEntry (e : Entry) : List Entry → List Entry
  | [] => [e]
  | x :: xs => if internalLt e x then e :: x :: xs else x :: insertEntry e xs

/-- Build a MemTable's entry list from the sequence of `Add` calls. -/
def buildMem (adds : List Entry) : List Entry :=
  adds.foldl (fun m e => insertEntry e m) []

/-- Result of `MemTable::Get` as the spec §4.3 describes it:
`Found(value) | NotFound | MergeInProgress(operands)`. -/
inductive GetResult where
  | Found (v : List Char)
  | NotFound
  | MergeInProgress (operands : List (List Char))
deriving DecidableEq, Repr

/-- Modelled from the spec: the lookup walk of `MemTable::Get`
(`db/memtable.cc` is not in the tree; `db/memtable.h` lines 73-80 document
the contract).  Walking the entries for the user key in descending-sequence
order: a Put terminates with `Found`, a Delete terminates with `NotFound`,
a Merge prepends its operand (the walk goes newest to oldest, so the
accumulated operand list ends up oldest first, as the deque `push_front` in
the code does) and continues older; exhausting the chain without a terminal
write yields `MergeInProgress`. -/
def mergeWalk : List Entry → List (List Char) → GetResult
  | [], ops => GetResult.MergeInProgress ops
  | e :: rest, ops =>
    match e.vtype with
    | ValueType.kTypeValue => GetResult.Found e.uval
    | ValueType.kTypeDeletion => GetResult.NotFound
    | ValueType.kTypeMerge => mergeWalk rest (e.uval :: ops)

/-- Modelled from the spec: `MemTable::Get(lookupKey, snapshotSeq)`.  The
skiplist seek plus same-user-key scan visits exactly the stored entries
with this user key and sequence at most the snapshot, in stored
(InternalKey) order. -/
def getMem (m : List Entry) (k : List Char) (snap : Nat) : GetResult :=
  mergeWalk (m.filter (fun e => e.ukey == k && decide (e.seq ≤ snap))) []

/-- Insertion into a list kept in descending-sequence order; used to state
what the visible chain of a user key looks like. -/
def insertSeqDesc (e : Entry) : List Entry → List Entry
  | [] => [e]
  | y :: ys => if y.seq < e.seq then e :: y :: ys else y :: insertSeqDesc e ys

/-- The visible chain of user key `k` at snapshot `snap`: the `Add` calls
for `k` with sequence at most `snap`, sorted into descending-sequence
order. -/
def visChain (adds : List Entry) (k : List Char) (snap : Nat) : List Entry :=
  adds.foldl
    (fun acc e =>
      if e.ukey == k && decide (e.seq ≤ snap) then insertSeqDesc e acc else acc)
    []

/-- The `Add` calls carry strictly increasing sequence numbers, as the
sequence allocator guarantees. -/
abbrev strictIncSeq (adds : List Entry) : Prop :=
  adds.Pairwise (fun a b => a.seq < b.seq)


/-- Sortedness of a MemTable's entry list in the InternalKey order. -/
abbrev MemSorted (l : List Entry) : Prop :=
  l.Pairwise (fun a b => internalLt b a = false)

/-- Descending-sequence order of a visible chain. -/
abbrev SeqDescSorted (l : List Entry) : Prop :=
  l.Pairwise (fun a b => b.seq ≤ a.seq)

/-! ## Write-ahead log and replication cursor (spec §4.4, §4.5; exercised
by src/tools/db_repl_stress.cc) -/

/-- Modelled from the spec: the WAL append path with its sequence allocator
(§4.1, §4.4) — the WAL implementation is not in the tree, only its stress
driver `src/tools/db_repl_stress.cc`.  `nextSeq` is the allocator counter
(first sequence of a fresh engine is 1) and `log` the ordered durable
records, each a (sequence, payload) pair. -/
structure WalState where
  nextSeq : Nat
  log : List (Nat × List Char)
deriving DecidableEq, Repr

/-- Modelled from the spec: `WAL.Append` of one record — it obtains the
next sequence number from the allocator and durably appends the stamped
record before returning (§4.4). -/
def walAppend (w : WalState) (v : List Char) : WalState :=
  { nextSeq := w.nextSeq + 1, log := w.log ++ [(w.nextSeq, v)] }

/-- A fresh engine's WAL: empty log, allocator at sequence 1. -/
def walInit : WalState :=
  { nextSeq := 1, log := [] }

/-- Append a whole list of records to a fresh WAL, the data-pump loop of
`db_repl_stress.cc`. -/
def buildWal (vals : List (List Char)) : WalState :=
  vals.foldl walAppend walInit

/-- The list of records stamped with consecutive sequences starting at
`s` — the specification of what `buildWal` produces. -/
def seqList (s : Nat) : List (List Char) → List (Nat × List Char)
  | [] => []
  | v :: t => (s, v) :: seqList (s + 1) t

/-- Modelled from the spec: the replication cursor (`ChangeIterator`,
`TransactionLogIterator` in the stress driver), holding the not yet
consumed suffix of the durable record stream (§4.5). -/
structure ChangeIter where
  remaining : List (Nat × List Char)
deriving DecidableEq, Repr

/-- `Valid()`: the cursor still has a record to deliver; `false` is the
`Exhausted` state ("caught up", not an error). -/
def ChangeIter.valid (it : ChangeIter) : Bool :=
  !it.remaining.isEmpty

/-- `Next()`: advance past the current record. -/
def ChangeIter.next (it : ChangeIter) : ChangeIter :=
  ⟨it.remaining.tail⟩

/-- `Next()` iterated `n` times. -/
def ChangeIter.nextN (it : ChangeIter) : Nat → ChangeIter
  | 0 => it
  | n + 1 => it.next.nextN n

/-- Modelled from the spec: `openChangeStream(fromSequence)` /
`GetUpdatesSince` — the cursor starts at the first durable record with
sequence at least `startSeq` and covers everything after it in order
(§4.5, §6). -/
def openChangeStream (log : List (Nat × List Char)) (startSeq : Nat) : ChangeIter :=
  ⟨log.filter (fun e => decide (startSeq ≤ e.1))⟩

/-- Consume the cursor to exhaustion, collecting every delivered record in
order: the replication loop of `db_repl_stress.cc`. -/
def ChangeIter.drain : ChangeIter → List (Nat × List Char)
  | ⟨[]⟩ => []
  | ⟨e :: rest⟩ => e :: ChangeIter.drain ⟨rest⟩

/-- The per-batch result of `TransactionLogIterator::GetBatch()` as used by
the stress driver: the batch's starting sequence and its entry count. -/
structure BatchResult where
  sequence : Nat
  count : Nat
deriving DecidableEq, Repr

/-- Modelled from the spec: the batch stream a WAL produces — each
`Append(batch)` reserves `count` consecutive sequence numbers starting
where the previous batch ended (§4.1, §4.4), so batch `i+1` starts at
`sequence i + count i`. -/
def buildBatches (s : Nat) : List Nat → List BatchResult
  | [] => []
  | c :: t => { sequence := s, count := c } :: buildBatches (s + c) t

/-- Outcome of the replication consumer loop: caught up with the next
expected sequence, or a fatal consistency abort (`exit(1)`). -/
inductive ReplOutcome where
  | caughtUp (nextSeq : Nat)
  | fatal (expected got : Nat)
deriving DecidableEq, Repr

/-- The consumer check loop of `ReplicationThreadBody` in
`src/tools/db_repl_stress.cc` lines 70-77: for each delivered batch
(single-record `Put` batches in the driver, so `currentSeqNum` advances by
one per batch), `GetBatch().sequence` must equal the expected sequence; on
mismatch the process prints and calls `exit(1)` — no retry, no skip. -/
def replLoop : Nat → List BatchResult → ReplOutcome
  | cur, [] => ReplOutcome.caughtUp cur
  | cur, b :: rest =>
    if b.sequence ≠ cur then ReplOutcome.fatal cur b.sequence
    else replLoop (cur + 1) rest

/-! ## WAL segment retention (spec §3, §4.4, §4.5, §9; the retention code
itself is not in the tree — db/memtable.h lines 91-97 only expose the flush
handshake's log number) -/

/-- Modelled from the spec: a closed WAL segment (§3):
`{file_number, min_seq, max_seq, created_at}`. -/
structure Segment where
  fileNum : Nat
  minSeq : Nat
  maxSeq : Nat
  createdAt : Nat
deriving DecidableEq, Repr

/-- Modelled from the spec: the retention-relevant engine state — the
closed segments, the registry of live ChangeIterator cursors (each recorded
by the next sequence it still needs), the clock, and the configured
`walTtlSeconds` (§4.4, §5, §6). -/
structure RetentionState where
  segments : List Segment
  cursors : List Nat
  clock : Nat
  ttl : Nat
deriving DecidableEq, Repr

/-- TTL expiry (§4.4): the segment is older than the configured TTL. -/
def ttlExpired (st : RetentionState) (s : Segment) : Bool :=
  decide (s.createdAt + st.ttl < st.clock)

/-- Cursor clearance (§3): every live cursor has consumed past the
segment's `max_seq`, i.e. the next sequence each one needs lies beyond it. -/
def clearedByCursors (st : RetentionState) (s : Segment) : Bool :=
  st.cursors.all (fun c => decide (s.maxSeq < c))

/-- Modelled from the spec: deletion eligibility — "a WAL segment may be
deleted only once `max_seq` is older than the retention floor", which
advances past a segment only after TTL expiry AND every live cursor has
consumed past its `max_seq` (§3 invariant, §4.4 retention, §9 fixing the
cursor-aware rule as the contract). -/
def deletable (st : RetentionState) (s : Segment) : Bool :=
  ttlExpired st s && clearedByCursors st s

/-- The actions of the retention subsystem: clock tick, segment rotation
(closing the active segment into the retained list), cursor registration,
cursor progress, cursor deregistration, and the garbage collection pass —
the only action that removes segments. -/
inductive WalAction where
  | tick
  | rotate (s : Segment)
  | openCursor (c : Nat)
  | advanceCursor (i : Nat)
  | closeCursor (i : Nat)
  | gcollect
deriving DecidableEq, Repr

/-- Modelled from the spec: one step of the retention subsystem (§4.4,
§4.5).  `gcollect` deletes exactly the deletion-eligible segments. -/
def applyAction (st : RetentionState) : WalAction → RetentionState
  | WalAction.tick => { st with clock := st.clock + 1 }
  | WalAction.rotate s => { st with segments := st.segments ++ [s] }
  | WalAction.openCursor c => { st with cursors := st.cursors ++ [c] }
  | WalAction.advanceCursor i =>
    { st with cursors := st.cursors.set i (st.cursors.getD i 0 + 1) }
  | WalAction.closeCursor i => { st with cursors := st.cursors.eraseIdx i }
  | WalAction.gcollect =>
    { st with segments := st.segments.filter (fun s => !deletable st s) }

/-- Run a list of retention actions: every state reachable from `st` is
`runWal st acts` for some action list. -/
def runWal (st : RetentionState) (acts : List WalAction) : RetentionState :=
  acts.foldl applyAction st

/-! ## Metrics sampling (src/ripple/metrics/impl/MetricsImpl.h,
`ExposableMetricsElement`) -/

/-- `ExposableMetricsElement<T>::mete(now)` from
`src/ripple/metrics/impl/MetricsImpl.h` lines 237-247.  `m_history` is a
`std::map` from time points to values, here a list of (time, value) pairs
with strictly increasing times; a time point is a `Nat` tick count and the
sample value a `Nat` (`Mete()` default-constructs to the epoch paired with
zero).  The code is
`if (m_history.size()) { auto i = m_history.lower_bound(now);
if (i != m_history.cbegin()) i--; return *(i); } else return Mete();`:
`lower_bound` is the first index whose time is `>= now` (the length when
none is), stepping back one position unless already at the beginning. -/
def meteHist (hist : List (Nat × Nat)) (now : Nat) : Nat × Nat :=
  match hist with
  | [] => (0, 0)
  | _ :: _ =>
    let i := hist.findIdx (fun p => decide (now ≤ p.1))
    hist.getD (if i = 0 then 0 else i - 1) (0, 0)

/-- `ExposableMetricsElement<T>::value(now)`: `return mete(now).second;`. -/
def valueHist (hist : List (Nat × Nat)) (now : Nat) : Nat :=
  (meteHist hist now).2

/-- A metrics history is a `std::map` snapshot: its keys (sample times) are
strictly increasing. -/
abbrev HistSorted (hist : List (Nat × Nat)) : Prop :=
  hist.Pairwise (fun a b => a.1 < b.1)

lemma runOps_dead (ops : List RefOp) : runOps RunState.dead ops = RunState.dead := by
  induction ops with
  | nil => rfl
  | cons op t ih => simpa [runOps, stepOp] using ih

lemma runOps_aborted (ops : List RefOp) :
    runOps RunState.aborted ops = RunState.aborted := by
  induction ops with
  | nil => rfl
  | cons op t ih => simpa [runOps, stepOp] using ih

lemma runOps_matched_no_abort (ops : List RefOp) :
    ∀ (m : MemTableState), matchedB m.refs ops = true →
      runOps (RunState.live m) ops ≠ RunState.aborted := by
  induction ops with
  | nil => intro m _ h; exact absurd h (by simp [runOps])
  | cons op t ih =>
    intro m hm
    cases op with
    | incr =>
      have hm' : matchedB (m.ref).refs t = true := by
        simpa [matchedB, MemTableState.ref] using hm
      simpa [runOps, stepOp] using ih m.ref hm'
    | decr =>
      have h1 : (1 : Int) ≤ m.refs := by
        have := hm
        simp [matchedB] at this
        exact this.1
      have ht : matchedB (m.refs - 1) t = true := by
        have := hm
        simp [matchedB] at this
        exact this.2
      by_cases hz : m.refs - 1 ≤ 0
      · have hd : m.unref = UnrefResult.destroyed := by
          have hnn : ¬ (m.refs - 1 < 0) := by omega
          simp [MemTableState.unref, hnn, hz]
        have : runOps (RunState.live m) (RefOp.decr :: t)
            = runOps RunState.dead t := by
          simp [runOps, stepOp, hd]
        rw [this, runOps_dead]
        intro hc; exact RunState.noConfusion hc
      · have hl : m.unref = UnrefResult.live { m with refs := m.refs - 1 } := by
          have hnn : ¬ (m.refs - 1 < 0) := by omega
          simp [MemTableState.unref, hnn, hz]
        have hstep : runOps (RunState.live m) (RefOp.decr :: t)
            = runOps (RunState.live { m with refs := m.refs - 1 }) t := by
          simp [runOps, stepOp, hl]
        rw [hstep]
        exact ih { m with refs := m.refs - 1 } ht

/-! ## Claim theorems: MemTable lifetime -/

/-- C1, counterexample.  The claim states that a MemTable whose flush has
not completed must not be destroyed when `Unref` brings the count to zero.
In `db/memtable.h`, `Unref` runs `delete this` whenever the decremented
count is `<= 0` without consulting the flush flags: a table with one
reference, a flush in progress and `flush_completed_ == false` is destroyed
by a single `Unref`. -/
theorem claim_C1_counterexample :
    ({ refs := 1, flush_in_progress := true, flush_completed := false,
       data := [] } : MemTableState).unref = UnrefResult.destroyed ∧
    ({ refs := 1, flush_in_progress := true, flush_completed := false,
       data := [] } : MemTableState).flush_completed = false := by
  decide

/-- C1, amended.  A MemTable is destroyed exactly once: `Unref` destroys it
precisely when it brings the count from 1 to 0 (`refs_ <= 0` after the
decrement, with `refs_ >= 0` passing the assertion), regardless of the
flush flags, and a destroyed table stays destroyed under any further
operations. -/
theorem claim_C1_amended :
    (∀ m : MemTableState, m.unref = UnrefResult.destroyed ↔ m.refs = 1) ∧
    (∀ (m : MemTableState) (b₁ b₂ : Bool),
      ({ m with flush_in_progress := b₁,
                flush_completed := b₂ } : MemTableState).unref
          = UnrefResult.destroyed ↔ m.unref = UnrefResult.destroyed) ∧
    (∀ ops : List RefOp, runOps RunState.dead ops = RunState.dead) := by
  refine ⟨?_, ?_, runOps_dead⟩
  · intro m
    unfold MemTableState.unref
    split_ifs with h1 h2 <;> simp <;> omega
  · intro m b₁ b₂
    unfold MemTableState.unref
    split_ifs <;> simp

/-- C6, counterexample.  The claim states every MemTable is created with a
reference count of 1.  `db/memtable.h` documents the constructor contract:
"The initial reference count is zero and the caller must call Ref() at
least once." -/
theorem claim_C6_counterexample :
    MemTableState.new.refs = 0 ∧ MemTableState.new.refs ≠ 1 := by
  decide

/-- C6, amended.  A MemTable is created empty with reference count 0; the
caller must call `Ref()` at least once before the table is shared, after
which the count is 1. -/
theorem claim_C6_amended :
    MemTableState.new.refs = 0 ∧ MemTableState.new.data = [] ∧
    MemTableState.new.ref.refs = 1 := by
  decide

/-- C8.  For a MemTable with reference count at least 1, `Ref()` followed by
`Unref()` returns to exactly the prior state: the count is restored and the
table is neither destroyed nor does the assertion fire. -/
theorem claim_C8 (m : MemTableState) (h : 1 ≤ m.refs) :
    m.ref.unref = UnrefResult.live m := by
  have h1 : ¬ (m.refs < 0) := by omega
  have h2 : ¬ (m.refs ≤ 0) := by omega
  simp [MemTableState.ref, MemTableState.unref, h1, h2]

/-- C8, witness: a MemTable holding one reference (a fresh table after the
mandatory first `Ref`) survives a `Ref`/`Unref` pair unchanged. -/
theorem claim_C8_witness :
    MemTableState.new.ref.ref.unref = UnrefResult.live MemTableState.new.ref :=
  claim_C8 MemTableState.new.ref (by decide)

/-- C9.  `Unref` on a table whose count is already 0 decrements `refs_` to
-1 and fails the `assert(refs_ >= 0)` — the process aborts; an aborted run
is never resumed by later operations; and whenever every `Unref` in a run
is matched by a preceding `Ref`, the assertion never fires. -/
theorem claim_C9 :
    MemTableState.new.unref = UnrefResult.assertFailed ∧
    (∀ ops : List RefOp, matchedB 0 ops = true →
      runOps (RunState.live MemTableState.new) ops ≠ RunState.aborted) ∧
    (∀ ops : List RefOp, runOps RunState.aborted ops = RunState.aborted) := by
  refine ⟨by decide, ?_, runOps_aborted⟩
  intro ops h
  exact runOps_matched_no_abort ops MemTableState.new h

/-- C9, witness: the matched run `Ref; Unref` on a fresh MemTable does not
abort. -/
theorem claim_C9_witness :
    runOps (RunState.live MemTableState.new) [RefOp.incr, RefOp.decr]
      ≠ RunState.aborted :=
  claim_C9.2.1 [RefOp.incr, RefOp.decr] (by decide)

/-! ## Lemmas for the metrics sampling model -/

lemma findIdx_eq_takeWhile_length {α : Type} (p : α → Bool) (l : List α) :
    l.findIdx p = (l.takeWhile (fun a => !p a)).length := by
  induction l with
  | nil => rfl
  | cons a t ih =>
    by_cases h : p a = true
    · simp [List.findIdx_cons, List.takeWhile_cons, h]
    · have h' : p a = false := by simpa using h
      simp [List.findIdx_cons, List.takeWhile_cons, h', ih]

lemma sorted_takeWhile_eq_filter (now : Nat) (l : List (Nat × Nat))
    (hl : HistSorted l) :
    l.takeWhile (fun e => decide (e.1 < now))
      = l.filter (fun e => decide (e.1 < now)) := by
  induction hl with
  | nil => rfl
  | cons ha ht ih =>
    rename_i a t
    by_cases h : a.1 < now
    · simp [List.takeWhile_cons, List.filter_cons, h, ih]
    · have hfil : t.filter (fun e => decide (e.1 < now)) = [] := by
        refine List.filter_eq_nil_iff.mpr ?_
        intro b hb
        have hab := ha b hb
        simp only [decide_eq_true_eq]
        omega
      simp [List.takeWhile_cons, List.filter_cons, h, hfil]

lemma getD_takeWhile {α : Type} (d : α) (q : α → Bool) :
    ∀ (l : List α) (j : Nat), j < (l.takeWhile q).length →
      l.getD j d = (l.takeWhile q).getD j d := by
  intro l
  induction l with
  | nil => intro j h; simp at h
  | cons a t ih =>
    intro j h
    by_cases hq : q a = true
    · cases j with
      | zero => simp [List.takeWhile_cons, hq]
      | succ j' =>
        have h' : j' < (t.takeWhile q).length := by
          simpa [List.takeWhile_cons, hq] using h
        simpa [List.takeWhile_cons, hq] using ih j' h'
    · have hq' : q a = false := by simpa using hq
      simp [List.takeWhile_cons, hq'] at h

lemma getD_eq_of_lt_length {α : Type} (l : List α) (j : Nat) (h : j < l.length)
    (d₁ d₂ : α) : l.getD j d₁ = l.getD j d₂ := by
  rw [List.getD_eq_getElem l d₁ h, List.getD_eq_getElem l d₂ h]

lemma getLastD_eq_getD {α : Type} :
    ∀ (l : List α) (d : α), l.getLastD d = l.getD (l.length - 1) d := by
  intro l
  induction l with
  | nil => intro d; rfl
  | cons a t ih =>
    intro d
    cases t with
    | nil => rfl
    | cons b t' =>
      rw [List.getLastD_cons, ih a]
      have h2 : (a :: b :: t').length - 1 = t'.length + 1 := by simp
      rw [h2]
      simp only [List.getD_cons_succ]
      have h3 : (b :: t').length - 1 = t'.length := by simp
      rw [h3]
      exact getD_eq_of_lt_length (b :: t') t'.length (by simp) a d

lemma getLastD_indep {α : Type} (a : α) (t : List α) (d₁ d₂ : α) :
    (a :: t).getLastD d₁ = (a :: t).getLastD d₂ := by
  cases t with
  | nil => rfl
  | cons b t' =>
    rw [show (a :: b :: t').getLastD d₁ = (b :: t').getLastD a from
          List.getLastD_cons a d₁ (b :: t'),
        show (a :: b :: t').getLastD d₂ = (b :: t').getLastD a from
          List.getLastD_cons a d₂ (b :: t')]

lemma meteHist_sorted_char (hist : List (Nat × Nat)) (now : Nat)
    (hs : HistSorted hist) (hne : hist ≠ []) :
    meteHist hist now
      = (hist.filter (fun e => decide (e.1 < now))).getLastD
          (hist.headD (0, 0)) := by
  obtain ⟨h, t, rfl⟩ := List.exists_cons_of_ne_nil hne
  have hfn : (fun p : Nat × Nat => !decide (now ≤ p.1))
      = (fun p : Nat × Nat => decide (p.1 < now)) := by
    funext p
    by_cases hp : now ≤ p.1
    · simp [hp]
    · simp [hp]; omega
  have hidx : (h :: t).findIdx (fun p => decide (now ≤ p.1))
      = ((h :: t).takeWhile (fun e => decide (e.1 < now))).length := by
    rw [findIdx_eq_takeWhile_length, hfn]
  have htf := sorted_takeWhile_eq_filter now (h :: t) hs
  by_cases hz : ((h :: t).takeWhile (fun e => decide (e.1 < now))).length = 0
  · have htw : (h :: t).takeWhile (fun e => decide (e.1 < now)) = [] :=
      List.length_eq_zero.mp hz
    have hfe : (h :: t).filter (fun e => decide (e.1 < now)) = [] := by
      rw [← htf]; exact htw
    rw [hfe]
    show meteHist (h :: t) now = (h :: t).headD (0, 0)
    simp only [meteHist, hidx, hz, if_pos rfl]
    simp
  · have hpos : 0 < ((h :: t).takeWhile (fun e => decide (e.1 < now))).length := by
      omega
    simp only [meteHist, hidx, if_neg hz]
    have hlt : ((h :: t).takeWhile (fun e => decide (e.1 < now))).length - 1
        < ((h :: t).takeWhile (fun e => decide (e.1 < now))).length := by
      omega
    rw [getD_takeWhile (0, 0) (fun e => decide (e.1 < now)) (h :: t) _ hlt]
    rw [← getLastD_eq_getD]
    rw [htf]
    obtain ⟨f, ft, hft⟩ : ∃ f ft,
        (h :: t).filter (fun e => decide (e.1 < now)) = f :: ft := by
      rcases hcf : (h :: t).filter (fun e => decide (e.1 < now)) with _ | ⟨f, ft⟩
      · rw [← htf] at hcf
        rw [hcf] at hz
        simp at hz
      · exact ⟨f, ft, hcf⟩
    rw [hft]
    exact getLastD_indep f ft (0, 0) ((h :: t).headD (0, 0))

/-! ## Claim theorems: metrics sampling -/

/-- C10, counterexample.  The claim states `mete(now)` returns the sample at
the largest recorded time point not after the query time.  With samples at
times 1 and 2 and a query at time 2, `lower_bound(2)` lands exactly on the
time-2 sample, the `i != cbegin()` guard steps back past it, and the time-1
sample is returned instead of the time-2 one. -/
theorem claim_C10_counterexample :
    meteHist [(1, 10), (2, 20)] 2 = (1, 10) ∧
    meteHist [(1, 10), (2, 20)] 2 ≠ (2, 20) := by
  decide

/-- C10, amended.  With an empty history, `mete(now)` and `value(now)`
return the default-constructed sample (epoch, zero) for every query time.
With a non-empty history they return the sample at the largest recorded
time point strictly before the query time, or the earliest sample when no
recorded time point is strictly before the query time; `value` is always
the value component of `mete`. -/
theorem claim_C10_amended :
    (∀ now, meteHist [] now = (0, 0) ∧ valueHist [] now = 0) ∧
    (∀ hist now, HistSorted hist → hist ≠ [] →
      meteHist hist now
        = (hist.filter (fun e => decide (e.1 < now))).getLastD
            (hist.headD (0, 0))) ∧
    (∀ hist now, valueHist hist now = (meteHist hist now).2) := by
  refine ⟨fun now => ⟨rfl, rfl⟩, ?_, fun hist now => rfl⟩
  intro hist now hs hne
  exact meteHist_sorted_char hist now hs hne

/-- C10, witness: on the sorted two-sample history at times 1 and 2 queried
at time 3, `mete` returns the latest sample strictly before the query. -/
theorem claim_C10_witness :
    meteHist [(1, 10), (2, 20)] 3
      = (([(1, 10), (2, 20)] : List (Nat × Nat)).filter
            (fun e => decide (e.1 < 3))).getLastD
          (([(1, 10), (2, 20)] : List (Nat × Nat)).headD (0, 0)) :=
  claim_C10_amended.2.1 [(1, 10), (2, 20)] 3 (by decide) (by decide)

/-! ## Lemmas for the MemTable Get model -/

lemma keyLt_irrefl : ∀ (a : List Char), keyLt a a = false := by
  intro a
  induction a with
  | nil => rfl
  | cons x xs ih => simp [keyLt, ih]

lemma keyLt_asymm : ∀ (a b : List Char), keyLt a b = true → keyLt b a = false := by
  intro a
  induction a with
  | nil =>
    intro b hb
    cases b with
    | nil => simp [keyLt] at hb
    | cons y ys => simp [keyLt]
  | cons x xs ih =>
    intro b hb
    cases b with
    | nil => simp [keyLt] at hb
    | cons y ys =>
      simp only [keyLt] at hb ⊢
      by_cases h1 : x < y
      · have h2 : ¬ (y < x) := fun hc => absurd (lt_trans h1 hc) (lt_irrefl x)
        simp [h1, h2]
      · by_cases h2 : y < x
        · simp [h1, h2] at hb
        · simp [h1, h2] at hb ⊢
          exact ih ys hb

lemma keyLt_trans : ∀ (a b c : List Char),
    keyLt a b = true → keyLt b c = true → keyLt a c = true := by
  intro a
  induction a with
  | nil =>
    intro b c hab hbc
    cases b with
    | nil => simp [keyLt] at hab
    | cons y ys =>
      cases c with
      | nil => simp [keyLt] at hbc
      | cons z zs => simp [keyLt]
  | cons x xs ih =>
    intro b c hab hbc
    cases b with
    | nil => simp [keyLt] at hab
    | cons y ys =>
      cases c with
      | nil => simp [keyLt] at hbc
      | cons z zs =>
        simp only [keyLt] at hab hbc ⊢
        by_cases h1 : x < y
        · by_cases h3 : y < z
          · have hxz : x < z := lt_trans h1 h3
            simp [hxz]
          · by_cases h4 : z < y
            · simp [h3, h4] at hbc
            · have hyz : y = z := le_antisymm (not_lt.mp h4) (not_lt.mp h3)
              have hxz : x < z := hyz ▸ h1
              simp [hxz]
        · by_cases h2 : y < x
          · simp [h1, h2] at hab
          · have hxy : x = y := le_antisymm (not_lt.mp h2) (not_lt.mp h1)
            by_cases h3 : y < z
            · have hxz : x < z := hxy ▸ h3
              simp [hxz]
            · by_cases h4 : z < y
              · simp [h3, h4] at hbc
              · simp [h1, h2] at hab
                simp [h3, h4] at hbc
                have hxz1 : ¬ x < z := by rw [hxy]; exact h3
                have hxz2 : ¬ z < x := by rw [hxy]; exact h4
                simp [hxz1, hxz2]
                exact ih ys zs hab hbc

lemma keyLt_eq_of_not : ∀ (a b : List Char),
    keyLt a b = false → keyLt b a = false → a = b := by
  intro a
  induction a with
  | nil =>
    intro b hab _
    cases b with
    | nil => rfl
    | cons y ys => simp [keyLt] at hab
  | cons x xs ih =>
    intro b hab hba
    cases b with
    | nil => simp [keyLt] at hba
    | cons y ys =>
      simp only [keyLt] at hab hba
      by_cases h1 : x < y
      · simp [h1] at hab
      · by_cases h2 : y < x
        · simp [h1, h2] at hba
        · have hxy : x = y := le_antisymm (not_lt.mp h2) (not_lt.mp h1)
          simp [h1, h2] at hab hba
          rw [hxy, ih ys hab hba]

lemma internalLt_iff (a b : Entry) :
    internalLt a b = true ↔
      keyLt a.ukey b.ukey = true ∨ (a.ukey = b.ukey ∧ b.seq < a.seq) := by
  simp [internalLt, Bool.or_eq_true, Bool.and_eq_true, decide_eq_true_eq]

lemma internalLt_false_parts (a b : Entry) (h : internalLt a b = false) :
    keyLt a.ukey b.ukey = false ∧ (a.ukey = b.ukey → a.seq ≤ b.seq) := by
  have h' : ¬ (keyLt a.ukey b.ukey = true ∨ (a.ukey = b.ukey ∧ b.seq < a.seq)) := by
    rw [← internalLt_iff]
    simp [h]
  push_neg at h'
  refine ⟨Bool.eq_false_iff.mpr h'.1, fun hk => ?_⟩
  have := h'.2 hk
  omega

lemma internalLt_asymm (a b : Entry) (h : internalLt a b = true) :
    internalLt b a = false := by
  by_contra hc
  rw [Bool.not_eq_false] at hc
  rcases (internalLt_iff _ _).mp h with hk | ⟨hk, hs⟩ <;>
    rcases (internalLt_iff _ _).mp hc with hk' | ⟨hk', hs'⟩
  · have := keyLt_asymm _ _ hk
    rw [this] at hk'
    exact Bool.noConfusion hk'
  · rw [hk'] at hk
    rw [keyLt_irrefl] at hk
    exact Bool.noConfusion hk
  · rw [hk] at hk'
    rw [keyLt_irrefl] at hk'
    exact Bool.noConfusion hk'
  · omega

lemma internalLt_cross (e x y : Entry) (h1 : internalLt e x = true)
    (h2 : internalLt y x = false) : internalLt e y = true := by
  rcases internalLt_false_parts y x h2 with ⟨h2a, h2b⟩
  rcases (internalLt_iff _ _).mp h1 with hk | ⟨hk, hs⟩
  · by_cases hxy : keyLt x.ukey y.ukey = true
    · exact (internalLt_iff _ _).mpr (Or.inl (keyLt_trans _ _ _ hk hxy))
    · have hfx : keyLt x.ukey y.ukey = false := Bool.eq_false_iff.mpr hxy
      have heq : x.ukey = y.ukey := keyLt_eq_of_not _ _ hfx h2a
      exact (internalLt_iff _ _).mpr (Or.inl (heq ▸ hk))
  · by_cases hxy : keyLt x.ukey y.ukey = true
    · exact (internalLt_iff _ _).mpr (Or.inl (hk ▸ hxy))
    · have hfx : keyLt x.ukey y.ukey = false := Bool.eq_false_iff.mpr hxy
      have heq : x.ukey = y.ukey := keyLt_eq_of_not _ _ hfx h2a
      have hyx : y.ukey = x.ukey := heq.symm
      have hys : y.seq ≤ x.seq := h2b hyx
      refine (internalLt_iff _ _).mpr (Or.inr ⟨?_, by omega⟩)
      rw [hk, heq]

lemma seq_lt_of_internalLt_of_eq_ukey (e y : Entry) (h : internalLt e y = true)
    (hk : e.ukey = y.ukey) : y.seq < e.seq := by
  rcases (internalLt_iff _ _).mp h with hlt | ⟨_, hs⟩
  · rw [hk, keyLt_irrefl] at hlt
    exact Bool.noConfusion hlt
  · exact hs

lemma mem_insertEntry (e y : Entry) :
    ∀ (l : List Entry), y ∈ insertEntry e l ↔ y = e ∨ y ∈ l := by
  intro l
  induction l with
  | nil => simp [insertEntry]
  | cons x xs ih =>
    simp only [insertEntry]
    by_cases h : internalLt e x = true
    · rw [if_pos h]
      simp [or_comm, or_left_comm, or_assoc]
    · rw [if_neg h]
      simp only [List.mem_cons, ih]
      tauto

lemma memSorted_insertEntry (e : Entry) :
    ∀ (l : List Entry), MemSorted l → MemSorted (insertEntry e l) := by
  intro l
  induction l with
  | nil => intro _; simp [insertEntry]
  | cons x xs ih =>
    intro hs
    rcases List.pairwise_cons.mp hs with ⟨hx, hxs⟩
    simp only [insertEntry]
    by_cases h : internalLt e x = true
    · rw [if_pos h]
      refine List.pairwise_cons.mpr ⟨?_, hs⟩
      intro y hy
      rcases List.mem_cons.mp hy with rfl | hmem
      · exact internalLt_asymm e y h
      · exact internalLt_asymm e y (internalLt_cross e x y h (hx y hmem))
    · rw [if_neg h]
      refine List.pairwise_cons.mpr ⟨?_, ih hxs⟩
      intro y hy
      rcases (mem_insertEntry e y xs).mp hy with rfl | hmem
      · exact Bool.eq_false_iff.mpr h
      · exact hx y hmem

lemma insertSeqDesc_eq_cons (e : Entry) :
    ∀ (L : List Entry), (∀ y ∈ L, y.seq < e.seq) → insertSeqDesc e L = e :: L := by
  intro L h
  cases L with
  | nil => rfl
  | cons y ys => simp [insertSeqDesc, h y (List.mem_cons_self y ys)]

lemma mem_insertSeqDesc (e y : Entry) :
    ∀ (L : List Entry), y ∈ insertSeqDesc e L ↔ y = e ∨ y ∈ L := by
  intro L
  induction L with
  | nil => simp [insertSeqDesc]
  | cons z zs ih =>
    simp only [insertSeqDesc]
    by_cases h : z.seq < e.seq
    · rw [if_pos h]
      simp [or_comm, or_left_comm, or_assoc]
    · rw [if_neg h]
      simp only [List.mem_cons, ih]
      tauto

lemma filter_cons_true {α : Type} (p : α → Bool) (a : α) (l : List α)
    (h : p a = true) : (a :: l).filter p = a :: l.filter p := by
  simp [List.filter_cons, h]

lemma filter_cons_false {α : Type} (p : α → Bool) (a : α) (l : List α)
    (h : p a = false) : (a :: l).filter p = l.filter p := by
  simp [List.filter_cons, h]

lemma filter_insertEntry (k : List Char) (snap : Nat) (e : Entry) :
    ∀ (l : List Entry), MemSorted l →
      (insertEntry e l).filter (fun x => x.ukey == k && decide (x.seq ≤ snap))
        = if e.ukey == k && decide (e.seq ≤ snap)
          then insertSeqDesc e
            (l.filter (fun x => x.ukey == k && decide (x.seq ≤ snap)))
          else l.filter (fun x => x.ukey == k && decide (x.seq ≤ snap)) := by
  intro l
  induction l with
  | nil =>
    intro _
    by_cases hpe : (e.ukey == k && decide (e.seq ≤ snap)) = true
    · rw [if_pos hpe]
      simp [insertEntry, List.filter_cons, hpe, insertSeqDesc]
    · rw [if_neg hpe]
      simp [insertEntry, List.filter_cons, hpe]
  | cons x xs ih =>
    intro hs
    rcases List.pairwise_cons.mp hs with ⟨hx, hxs⟩
    simp only [insertEntry]
    by_cases hlt : internalLt e x = true
    · rw [if_pos hlt]
      by_cases hpe : (e.ukey == k && decide (e.seq ≤ snap)) = true
      · rw [if_pos hpe]
        rw [filter_cons_true (fun x => x.ukey == k && decide (x.seq ≤ snap))
              e (x :: xs) hpe]
        have heuk : e.ukey = k := by
          have := (Bool.and_eq_true _ _).mp hpe
          exact beq_iff_eq.mp this.1
        have hall : ∀ y ∈ (x :: xs).filter
            (fun x => x.ukey == k && decide (x.seq ≤ snap)), y.seq < e.seq := by
          intro y hy
          rcases List.mem_filter.mp hy with ⟨hymem, hpy⟩
          have hyuk : y.ukey = k := by
            have := (Bool.and_eq_true _ _).mp hpy
            exact beq_iff_eq.mp this.1
          have hkeq : e.ukey = y.ukey := by rw [heuk, hyuk]
          rcases List.mem_cons.mp hymem with rfl | hmem
          · exact seq_lt_of_internalLt_of_eq_ukey e y hlt hkeq
          · exact seq_lt_of_internalLt_of_eq_ukey e y
              (internalLt_cross e x y hlt (hx y hmem)) hkeq
        rw [insertSeqDesc_eq_cons e _ hall]
      · have hpe' : (e.ukey == k && decide (e.seq ≤ snap)) = false :=
          Bool.eq_false_iff.mpr hpe
        rw [if_neg hpe]
        rw [filter_cons_false (fun x => x.ukey == k && decide (x.seq ≤ snap))
              e (x :: xs) hpe']
    · rw [if_neg hlt]
      have hlt' : internalLt e x = false := Bool.eq_false_iff.mpr hlt
      by_cases hpx : (x.ukey == k && decide (x.seq ≤ snap)) = true
      · rw [filter_cons_true (fun x => x.ukey == k && decide (x.seq ≤ snap))
              x (insertEntry e xs) hpx, ih hxs]
        by_cases hpe : (e.ukey == k && decide (e.seq ≤ snap)) = true
        · rw [if_pos hpe, if_pos hpe]
          rw [filter_cons_true (fun x => x.ukey == k && decide (x.seq ≤ snap))
                x xs hpx]
          have heuk : e.ukey = k := by
            have := (Bool.and_eq_true _ _).mp hpe
            exact beq_iff_eq.mp this.1
          have hxuk : x.ukey = k := by
            have := (Bool.and_eq_true _ _).mp hpx
            exact beq_iff_eq.mp this.1
          have hkeq : e.ukey = x.ukey := by rw [heuk, hxuk]
          have hseq : ¬ (x.seq < e.seq) := by
            have := (internalLt_false_parts e x hlt').2 hkeq
            omega
          simp [insertSeqDesc, hseq]
        · rw [if_neg hpe, if_neg hpe]
          rw [filter_cons_true (fun x => x.ukey == k && decide (x.seq ≤ snap))
                x xs hpx]
      · have hpx' : (x.ukey == k && decide (x.seq ≤ snap)) = false :=
          Bool.eq_false_iff.mpr hpx
        rw [filter_cons_false (fun x => x.ukey == k && decide (x.seq ≤ snap))
              x (insertEntry e xs) hpx', ih hxs]
        by_cases hpe : (e.ukey == k && decide (e.seq ≤ snap)) = true
        · rw [if_pos hpe, if_pos hpe]
          rw [filter_cons_false (fun x => x.ukey == k && decide (x.seq ≤ snap))
                x xs hpx']
        · rw [if_neg hpe, if_neg hpe]
          rw [filter_cons_false (fun x => x.ukey == k && decide (x.seq ≤ snap))
                x xs hpx']

lemma filter_foldl_insertEntry (k : List Char) (snap : Nat) :
    ∀ (adds m : List Entry), MemSorted m →
      ((adds.foldl (fun acc e => insertEntry e acc) m).filter
          (fun x => x.ukey == k && decide (x.seq ≤ snap)))
        = adds.foldl
            (fun acc e =>
              if e.ukey == k && decide (e.seq ≤ snap) then insertSeqDesc e acc
              else acc)
            (m.filter (fun x => x.ukey == k && decide (x.seq ≤ snap))) := by
  intro adds
  induction adds with
  | nil => intro m _; simp
  | cons e t ih =>
    intro m hm
    simp only [List.foldl_cons]
    rw [ih (insertEntry e m) (memSorted_insertEntry e m hm)]
    rw [filter_insertEntry k snap e m hm]

lemma getMem_buildMem (adds : List Entry) (k : List Char) (snap : Nat) :
    getMem (buildMem adds) k snap = mergeWalk (visChain adds k snap) [] := by
  unfold getMem buildMem visChain
  rw [filter_foldl_insertEntry k snap adds [] List.Pairwise.nil]
  rfl

lemma insertSeqDesc_perm (e : Entry) :
    ∀ (L : List Entry), (insertSeqDesc e L).Perm (e :: L) := by
  intro L
  induction L with
  | nil => simp [insertSeqDesc]
  | cons y ys ih =>
    simp only [insertSeqDesc]
    by_cases h : y.seq < e.seq
    · rw [if_pos h]
    · rw [if_neg h]
      exact (ih.cons y).trans (List.Perm.swap e y ys)

lemma visChain_perm_aux (k : List Char) (snap : Nat) :
    ∀ (adds acc : List Entry),
      (adds.foldl
          (fun acc e =>
            if e.ukey == k && decide (e.seq ≤ snap) then insertSeqDesc e acc
            else acc)
          acc).Perm
        (acc ++ adds.filter (fun e => e.ukey == k && decide (e.seq ≤ snap))) := by
  intro adds
  induction adds with
  | nil => intro acc; simp
  | cons e t ih =>
    intro acc
    simp only [List.foldl_cons]
    by_cases hp : (e.ukey == k && decide (e.seq ≤ snap)) = true
    · rw [if_pos hp,
        filter_cons_true (fun e => e.ukey == k && decide (e.seq ≤ snap)) e t hp]
      refine (ih (insertSeqDesc e acc)).trans ?_
      refine (List.Perm.append_right _ (insertSeqDesc_perm e acc)).trans ?_
      have : (e :: acc) ++ t.filter (fun e => e.ukey == k && decide (e.seq ≤ snap))
          = e :: (acc ++ t.filter (fun e => e.ukey == k && decide (e.seq ≤ snap))) := by
        simp
      rw [this]
      exact List.perm_middle.symm
    · have hp' : (e.ukey == k && decide (e.seq ≤ snap)) = false :=
        Bool.eq_false_iff.mpr hp
      rw [if_neg hp,
        filter_cons_false (fun e => e.ukey == k && decide (e.seq ≤ snap)) e t hp']
      exact ih acc

lemma visChain_perm (adds : List Entry) (k : List Char) (snap : Nat) :
    (visChain adds k snap).Perm
      (adds.filter (fun e => e.ukey == k && decide (e.seq ≤ snap))) := by
  have := visChain_perm_aux k snap adds []
  simpa [visChain] using this

lemma seqDesc_insertSeqDesc (e : Entry) :
    ∀ (L : List Entry), SeqDescSorted L → SeqDescSorted (insertSeqDesc e L) := by
  intro L
  induction L with
  | nil => intro _; simp [insertSeqDesc]
  | cons y ys ih =>
    intro hs
    rcases List.pairwise_cons.mp hs with ⟨hy, hys⟩
    simp only [insertSeqDesc]
    by_cases h : y.seq < e.seq
    · rw [if_pos h]
      refine List.pairwise_cons.mpr ⟨?_, hs⟩
      intro b hb
      rcases List.mem_cons.mp hb with rfl | hmem
      · omega
      · have := hy b hmem
        omega
    · rw [if_neg h]
      refine List.pairwise_cons.mpr ⟨?_, ih hys⟩
      intro b hb
      rcases (mem_insertSeqDesc e b ys).mp hb with rfl | hmem
      · omega
      · exact hy b hmem

lemma visChain_sorted_aux (k : List Char) (snap : Nat) :
    ∀ (adds acc : List Entry), SeqDescSorted acc →
      SeqDescSorted
        (adds.foldl
          (fun acc e =>
            if e.ukey == k && decide (e.seq ≤ snap) then insertSeqDesc e acc
            else acc)
          acc) := by
  intro adds
  induction adds with
  | nil => intro acc h; simpa using h
  | cons e t ih =>
    intro acc h
    simp only [List.foldl_cons]
    by_cases hp : (e.ukey == k && decide (e.seq ≤ snap)) = true
    · rw [if_pos hp]
      exact ih _ (seqDesc_insertSeqDesc e acc h)
    · rw [if_neg hp]
      exact ih _ h

lemma visChain_sorted (adds : List Entry) (k : List Char) (snap : Nat) :
    SeqDescSorted (visChain adds k snap) :=
  visChain_sorted_aux k snap adds [] List.Pairwise.nil

/-! ## Claim theorems: MemTable Get -/

/-- C3.  For every sequence of `Add` calls with strictly increasing
sequence numbers and every lookup key and snapshot, `Get` is the
descending-sequence walk over the visible chain of that user key — the
entries with that key and sequence at most the snapshot, in descending
sequence order (newest, i.e. largest sequence not exceeding the snapshot,
first): a Put yields `Found` its value, a Delete yields `NotFound`, a Merge
accumulates its operand and continues older, and exhausting the chain
yields `MergeInProgress`.  The chain is genuinely the descending-sequence
arrangement of exactly the matching adds (second and third conjuncts).  In
particular `Add(5, Put, "a", "x")` then `Add(7, Delete, "a", "")` gives
`Get("a", 10) = NotFound`. -/
theorem claim_C3 (adds : List Entry) (k : List Char) (snap : Nat)
    (hinc : strictIncSeq adds) :
    getMem (buildMem adds) k snap = mergeWalk (visChain adds k snap) [] ∧
    SeqDescSorted (visChain adds k snap) ∧
    (visChain adds k snap).Perm
      (adds.filter (fun e => e.ukey == k && decide (e.seq ≤ snap))) ∧
    getMem (buildMem
      [⟨5, ValueType.kTypeValue, ['a'], ['x']⟩,
       ⟨7, ValueType.kTypeDeletion, ['a'], []⟩]) ['a'] 10
      = GetResult.NotFound :=
  ⟨getMem_buildMem adds k snap, visChain_sorted adds k snap,
   visChain_perm adds k snap, by decide⟩

/-- C3, witness: the Put-then-Delete scenario instantiates the theorem; its
`Add` sequence 5, 7 is strictly increasing and the lookup at snapshot 10
returns `NotFound`. -/
theorem claim_C3_witness :
    getMem (buildMem
      [⟨5, ValueType.kTypeValue, ['a'], ['x']⟩,
       ⟨7, ValueType.kTypeDeletion, ['a'], []⟩]) ['a'] 10
      = GetResult.NotFound :=
  (claim_C3
    [⟨5, ValueType.kTypeValue, ['a'], ['x']⟩,
     ⟨7, ValueType.kTypeDeletion, ['a'], []⟩]
    ['a'] 10 (by decide)).2.2.2

/-- C7.  Two merges on key "a" at sequences 1 and 2 with no terminal write:
`Get("a", 2)` returns `MergeInProgress` with the operand list exactly
`["+1", "+2"]`, oldest operand first, as a result value rather than an
error. -/
theorem claim_C7 :
    getMem (buildMem
      [⟨1, ValueType.kTypeMerge, ['a'], ['+', '1']⟩,
       ⟨2, ValueType.kTypeMerge, ['a'], ['+', '2']⟩]) ['a'] 2
      = GetResult.MergeInProgress [['+', '1'], ['+', '2']] := by
  decide

/-! ## Lemmas for the WAL and replication cursor -/

lemma foldl_walAppend :
    ∀ (vals : List (List Char)) (s : Nat) (log : List (Nat × List Char)),
      vals.foldl walAppend ⟨s, log⟩
        = ⟨s + vals.length, log ++ seqList s vals⟩ := by
  intro vals
  induction vals with
  | nil => intro s log; simp [seqList]
  | cons v t ih =>
    intro s log
    simp only [List.foldl_cons, walAppend, seqList]
    rw [ih (s + 1) (log ++ [(s, v)])]
    congr 1
    · simp; omega
    · simp

lemma buildWal_log (vals : List (List Char)) :
    (buildWal vals).log = seqList 1 vals := by
  unfold buildWal walInit
  rw [foldl_walAppend vals 1 []]
  simp

lemma seqList_map_fst :
    ∀ (vals : List (List Char)) (s : Nat),
      (seqList s vals).map Prod.fst = List.range' s vals.length := by
  intro vals
  induction vals with
  | nil => intro s; rfl
  | cons v t ih =>
    intro s
    simp only [seqList, List.map_cons, ih (s + 1), List.length_cons]
    rw [List.range'_succ s t.length 1]

lemma seqList_map_snd :
    ∀ (vals : List (List Char)) (s : Nat),
      (seqList s vals).map Prod.snd = vals := by
  intro vals
  induction vals with
  | nil => intro s; rfl
  | cons v t ih =>
    intro s
    simp only [seqList, List.map_cons, ih (s + 1)]

lemma seqList_length (vals : List (List Char)) :
    ∀ (s : Nat), (seqList s vals).length = vals.length := by
  induction vals with
  | nil => intro s; rfl
  | cons v t ih => intro s; simp [seqList, ih (s + 1)]

lemma seqList_filter_ge :
    ∀ (vals : List (List Char)) (s t : Nat), t ≤ s →
      (seqList s vals).filter (fun e => decide (t ≤ e.1)) = seqList s vals := by
  intro vals
  induction vals with
  | nil => intro s t _; rfl
  | cons v tl ih =>
    intro s t hts
    simp only [seqList]
    rw [filter_cons_true (fun e => decide (t ≤ e.1)) (s, v) (seqList (s + 1) tl)
          (by simpa using hts)]
    rw [ih (s + 1) t (by omega)]

lemma drain_mk (l : List (Nat × List Char)) :
    ChangeIter.drain ⟨l⟩ = l := by
  induction l with
  | nil => simp [ChangeIter.drain]
  | cons e rest ih => simp [ChangeIter.drain, ih]

lemma nextN_mk (l : List (Nat × List Char)) :
    ∀ (n : Nat), (ChangeIter.mk l).nextN n = ⟨l.drop n⟩ := by
  induction l with
  | nil =>
    intro n
    induction n with
    | zero => rfl
    | succ m ihm => simpa [ChangeIter.nextN, ChangeIter.next] using ihm
  | cons e rest ih =>
    intro n
    cases n with
    | zero => rfl
    | succ m => simpa [ChangeIter.nextN, ChangeIter.next] using ih m

lemma buildBatches_head_seq :
    ∀ (counts : List Nat) (s : Nat) (h : 0 < (buildBatches s counts).length),
      ((buildBatches s counts).get ⟨0, h⟩).sequence = s := by
  intro counts s h
  cases counts with
  | nil => simp [buildBatches] at h
  | cons c t => rfl

lemma buildBatches_adjacent :
    ∀ (counts : List Nat) (s i : Nat)
      (h : i + 1 < (buildBatches s counts).length)
      (h' : i < (buildBatches s counts).length),
      ((buildBatches s counts).get ⟨i + 1, h⟩).sequence
        = ((buildBatches s counts).get ⟨i, h'⟩).sequence
          + ((buildBatches s counts).get ⟨i, h'⟩).count := by
  intro counts
  induction counts with
  | nil => intro s i h h'; simp [buildBatches] at h
  | cons c t ih =>
    intro s i h h'
    cases i with
    | zero =>
      have h0 : 0 < (buildBatches (s + c) t).length := by
        simpa [buildBatches] using h
      have hget : ((buildBatches s (c :: t)).get ⟨1, h⟩).sequence
          = ((buildBatches (s + c) t).get ⟨0, h0⟩).sequence := by
        simp [buildBatches]
      rw [hget, buildBatches_head_seq t (s + c) h0]
      rfl
    | succ j =>
      have hj : j + 1 < (buildBatches (s + c) t).length := by
        simpa [buildBatches] using h
      have hj' : j < (buildBatches (s + c) t).length := by omega
      have e1 : ((buildBatches s (c :: t)).get ⟨j + 2, h⟩).sequence
          = ((buildBatches (s + c) t).get ⟨j + 1, hj⟩).sequence := by
        simp [buildBatches]
      have e2 : (buildBatches s (c :: t)).get ⟨j + 1, h'⟩
          = (buildBatches (s + c) t).get ⟨j, hj'⟩ := by
        simp [buildBatches]
      rw [e1, e2]
      exact ih (s + c) j hj hj'

lemma replLoop_ok_iff :
    ∀ (bs : List BatchResult) (cur : Nat),
      (∃ n, replLoop cur bs = ReplOutcome.caughtUp n) ↔
        bs.map (fun b => b.sequence) = List.range' cur bs.length := by
  intro bs
  induction bs with
  | nil =>
    intro cur
    constructor
    · intro _; rfl
    · intro _; exact ⟨cur, rfl⟩
  | cons b t ih =>
    intro cur
    by_cases hb : b.sequence = cur
    · rw [show replLoop cur (b :: t) = replLoop (cur + 1) t from by
          simp [replLoop, hb]]
      rw [ih (cur + 1)]
      simp only [List.map_cons, List.length_cons]
      rw [List.range'_succ cur t.length 1]
      simp [hb]
    · rw [show replLoop cur (b :: t) = ReplOutcome.fatal cur b.sequence from by
          simp [replLoop, hb]]
      simp only [List.map_cons, List.length_cons]
      rw [List.range'_succ cur t.length 1]
      simp [hb]

/-! ## Claim theorems: WAL replication -/

/-- C4.  In a WAL batch stream (each append reserving `count` consecutive
sequences), consecutive valid batches satisfy
`next.sequence = prior.sequence + prior.count` — no gap, no duplicate
(first conjunct).  The replication consumer of `db_repl_stress.cc` treats
any discontinuity as fatal: the first mismatched batch aborts the loop at
once, with the remaining stream never examined (second conjunct), and the
loop completes without aborting exactly when the delivered sequences are
the contiguous range from the resume point (third conjunct). -/
theorem claim_C4 :
    (∀ (s : Nat) (counts : List Nat) (i : Nat)
        (h : i + 1 < (buildBatches s counts).length)
        (h' : i < (buildBatches s counts).length),
      ((buildBatches s counts).get ⟨i + 1, h⟩).sequence
        = ((buildBatches s counts).get ⟨i, h'⟩).sequence
          + ((buildBatches s counts).get ⟨i, h'⟩).count) ∧
    (∀ (cur : Nat) (b : BatchResult) (rest : List BatchResult),
      b.sequence ≠ cur →
        replLoop cur (b :: rest) = ReplOutcome.fatal cur b.sequence) ∧
    (∀ (cur : Nat) (bs : List BatchResult),
      (∃ n, replLoop cur bs = ReplOutcome.caughtUp n) ↔
        bs.map (fun b => b.sequence) = List.range' cur bs.length) := by
  refine ⟨?_, ?_, fun cur bs => replLoop_ok_iff bs cur⟩
  · intro s counts i h h'
    exact buildBatches_adjacent counts s i h h'
  · intro cur b rest hne
    simp [replLoop, hne]

/-- C4, witness: in the batch stream starting at sequence 1 with counts 2
and 3, the second batch starts at 1 + 2; a batch delivering sequence 7 when
5 is expected aborts immediately. -/
theorem claim_C4_witness :
    ((buildBatches 1 [2, 3]).get ⟨1, by decide⟩).sequence
        = ((buildBatches 1 [2, 3]).get ⟨0, by decide⟩).sequence
          + ((buildBatches 1 [2, 3]).get ⟨0, by decide⟩).count ∧
    replLoop 5 [{ sequence := 7, count := 1 }] = ReplOutcome.fatal 5 7 :=
  ⟨claim_C4.1 1 [2, 3] 0 (by decide) (by decide),
   claim_C4.2.1 5 { sequence := 7, count := 1 } [] (by decide)⟩

/-- C5.  Round-trip: appending any finite record list to a fresh WAL stamps
them with consecutive sequences 1..n in order, and a ChangeIterator opened
at sequence 1 delivers exactly that stamped list — the sequences read are
precisely 1, 2, ..., n with no gap and no duplicate, the payloads are the
original records in order, and the cursor stays valid until all n records
are consumed, reaching Exhausted exactly then.  In particular, after 1000
records the cursor reads exactly sequences 1..1000. -/
theorem claim_C5 :
    (∀ vals : List (List Char),
      (buildWal vals).log = seqList 1 vals ∧
      (openChangeStream (buildWal vals).log 1).drain = seqList 1 vals ∧
      (seqList 1 vals).map Prod.fst = List.range' 1 vals.length ∧
      (seqList 1 vals).map Prod.snd = vals ∧
      (∀ i : Nat,
        ((openChangeStream (buildWal vals).log 1).nextN i).valid
          = decide (i < vals.length))) ∧
    ((openChangeStream (buildWal (List.replicate 1000 ['v'])).log 1).drain).map
        Prod.fst = List.range' 1 1000 := by
  have main : ∀ vals : List (List Char),
      (buildWal vals).log = seqList 1 vals ∧
      (openChangeStream (buildWal vals).log 1).drain = seqList 1 vals ∧
      (seqList 1 vals).map Prod.fst = List.range' 1 vals.length ∧
      (seqList 1 vals).map Prod.snd = vals ∧
      (∀ i : Nat,
        ((openChangeStream (buildWal vals).log 1).nextN i).valid
          = decide (i < vals.length)) := by
    intro vals
    have hlog := buildWal_log vals
    have hopen : openChangeStream (buildWal vals).log 1 = ⟨seqList 1 vals⟩ := by
      rw [hlog]
      unfold openChangeStream
      rw [seqList_filter_ge vals 1 1 (le_refl 1)]
    refine ⟨hlog, ?_, seqList_map_fst vals 1, seqList_map_snd vals 1, ?_⟩
    · rw [hopen]; exact drain_mk _
    · intro i
      rw [hopen, nextN_mk]
      by_cases hi : i < vals.length
      · have hne : (seqList 1 vals).drop i ≠ [] := by
          intro hc
          have hlen := List.drop_eq_nil_iff.mp hc
          rw [seqList_length] at hlen
          omega
        simp [ChangeIter.valid, hi, hne]
      · have hnil : (seqList 1 vals).drop i = [] := by
          refine List.drop_eq_nil_iff.mpr ?_
          rw [seqList_length]
          omega
        simp [ChangeIter.valid, hi, hnil]
  refine ⟨main, ?_⟩
  rw [(main (List.replicate 1000 ['v'])).2.1, seqList_map_fst,
    List.length_replicate]

/-! ## Lemmas for WAL segment retention -/

lemma applyAction_remove (st : RetentionState) (a : WalAction) (s : Segment)
    (hmem : s ∈ st.segments) (hnot : s ∉ (applyAction st a).segments) :
    a = WalAction.gcollect ∧ ttlExpired st s = true ∧
      clearedByCursors st s = true := by
  cases a with
  | tick => exact absurd hmem hnot
  | rotate s' => exact absurd (List.mem_append_left _ hmem) hnot
  | openCursor c => exact absurd hmem hnot
  | advanceCursor i => exact absurd hmem hnot
  | closeCursor i => exact absurd hmem hnot
  | gcollect =>
    have hp : ¬ ((!deletable st s) = true) := by
      intro hc
      exact hnot (List.mem_filter.mpr ⟨hmem, hc⟩)
    have hd : deletable st s = true := by
      rcases Bool.eq_false_or_eq_true (deletable st s) with h | h
      · exact h
      · exact absurd (by simp [h]) hp
    have hparts := (Bool.and_eq_true _ _).mp (by simpa [deletable] using hd)
    exact ⟨rfl, hparts.1, hparts.2⟩

lemma applyAction_keep (st : RetentionState) (a : WalAction) (s : Segment)
    (c : Nat) (hmem : s ∈ st.segments) (hc : c ∈ st.cursors)
    (hle : c ≤ s.maxSeq) : s ∈ (applyAction st a).segments := by
  cases a with
  | tick => exact hmem
  | rotate s' => exact List.mem_append_left _ hmem
  | openCursor c' => exact hmem
  | advanceCursor i => exact hmem
  | closeCursor i => exact hmem
  | gcollect =>
    refine List.mem_filter.mpr ⟨hmem, ?_⟩
    have hall : ¬ (st.cursors.all (fun x => decide (s.maxSeq < x)) = true) := by
      intro hc'
      have := List.all_eq_true.mp hc' c hc
      simp only [decide_eq_true_eq] at this
      omega
    have hcl : clearedByCursors st s = false := by
      unfold clearedByCursors
      exact Bool.eq_false_iff.mpr hall
    simp [deletable, hcl]

lemma runWal_remove (st : RetentionState) (acts : List WalAction) (s : Segment)
    (hmem : s ∈ st.segments) (hnot : s ∉ (runWal st acts).segments) :
    ∃ n, n < acts.length ∧
      s ∈ (runWal st (acts.take n)).segments ∧
      ttlExpired (runWal st (acts.take n)) s = true ∧
      clearedByCursors (runWal st (acts.take n)) s = true := by
  induction acts generalizing st with
  | nil => exact absurd hmem hnot
  | cons a t ih =>
    by_cases hmid : s ∈ (applyAction st a).segments
    · have hnot' : s ∉ (runWal (applyAction st a) t).segments := by
        simpa [runWal] using hnot
      obtain ⟨n, hn, h1, h2, h3⟩ := ih (applyAction st a) hmid hnot'
      have heq : runWal st ((a :: t).take (n + 1))
          = runWal (applyAction st a) (t.take n) := by
        simp [runWal]
      refine ⟨n + 1, ?_, ?_, ?_, ?_⟩
      · simp only [List.length_cons]; omega
      · rw [heq]; exact h1
      · rw [heq]; exact h2
      · rw [heq]; exact h3
    · obtain ⟨-, h2, h3⟩ := applyAction_remove st a s hmem hmid
      refine ⟨0, by simp, ?_, ?_, ?_⟩
      · simpa [runWal] using hmem
      · simpa [runWal] using h2
      · simpa [runWal] using h3

/-! ## Claim theorem: WAL segment retention -/

/-- C2.  In the retention state machine (covering every reachable engine
state): a segment present before a step and absent after it was removed by
the garbage-collection pass with both conditions holding at that state —
TTL expired AND every live cursor consumed past its `max_seq` (first
conjunct); a segment some registered cursor still requires (`c ≤ max_seq`)
survives any single action, flush-driven or not (second conjunct); and
along any action trace, a segment that disappears does so at a step at
which both conditions held (third conjunct). -/
theorem claim_C2 :
    (∀ (st : RetentionState) (a : WalAction) (s : Segment),
      s ∈ st.segments → s ∉ (applyAction st a).segments →
        a = WalAction.gcollect ∧ ttlExpired st s = true ∧
          clearedByCursors st s = true) ∧
    (∀ (st : RetentionState) (a : WalAction) (s : Segment) (c : Nat),
      s ∈ st.segments → c ∈ st.cursors → c ≤ s.maxSeq →
        s ∈ (applyAction st a).segments) ∧
    (∀ (st : RetentionState) (acts : List WalAction) (s : Segment),
      s ∈ st.segments → s ∉ (runWal st acts).segments →
        ∃ n, n < acts.length ∧
          s ∈ (runWal st (acts.take n)).segments ∧
          ttlExpired (runWal st (acts.take n)) s = true ∧
          clearedByCursors (runWal st (acts.take n)) s = true) :=
  ⟨fun st a s hm hn => applyAction_remove st a s hm hn,
   fun st a s c hm hc hle => applyAction_keep st a s c hm hc hle,
   fun st acts s hm hn => runWal_remove st acts s hm hn⟩

/-- C2, witness: a TTL-expired segment still needed by the cursor pinned at
sequence 5 (its `max_seq` is 10) survives a garbage-collection pass. -/
theorem claim_C2_witness :
    ({ fileNum := 1, minSeq := 1, maxSeq := 10, createdAt := 0 } : Segment)
      ∈ (applyAction
          { segments := [{ fileNum := 1, minSeq := 1, maxSeq := 10,
                           createdAt := 0 }],
            cursors := [5], clock := 100, ttl := 1 }
          WalAction.gcollect).segments :=
  claim_C2.2.1
    { segments := [{ fileNum := 1, minSeq := 1, maxSeq := 10, createdAt := 0 }],
      cursors := [5], clock := 100, ttl := 1 }
    WalAction.gcollect
    { fileNum := 1, minSeq := 1, maxSeq := 10, createdAt := 0 }
    5 (by decide) (by decide) (by decide)
